import Mathlib

/-!
Shallow embedding of `src/logistic_regression.py`: a parametric sweep of a
binary-classification experiment.  The script generates two Gaussian point
clusters separated by a shift distance, fits a logistic-regression model
(external collaborator), records loss and a contour-based margin width per
sweep iteration.

Numeric data on the Python side are floats; here grid coordinates, shift
distances and generator parameters are rationals, while logarithms, square
roots and distances live in the reals.  Numpy's global random stream and the
covariance-shaping step inside `multivariate_normal` are modelled by an
abstract deterministic state machine `RandomModel`: every theorem about the
generator quantifies over all such machines, which captures exactly what the
source guarantees (determinism given the stream state) without inventing the
internals of the Mersenne twister.
-/

namespace LogReg

/-- A 2-D feature point, as one row of the numpy arrays in the source. -/
abbrev Point := ℚ × ℚ

/-- Deterministic model of numpy's global random machinery, as used by
`generate_ellipsoid_clusters`:
* `seed n` is the state after `np.random.seed(n)`;
* `next` draws one scalar from the underlying standard-normal stream and
  advances the state;
* `shape cov z` is the deterministic linear map that
  `np.random.multivariate_normal` applies to a pair of unit draws `z` to give
  a zero-mean sample with covariance `cov`. -/
structure RandomModel (σ : Type) where
  seed : ℕ → σ
  next : σ → ℚ × σ
  shape : List (List ℚ) → ℚ × ℚ → ℚ × ℚ

/-- `np.random.multivariate_normal(mean, cov, size)`: draws `size` samples,
each consuming two scalars of the stream, shaped by the covariance and
translated by the mean.  Returns the samples and the advanced stream state. -/
def multivariate_normal {σ : Type} (R : RandomModel σ) (mean : ℚ × ℚ)
    (cov : List (List ℚ)) : ℕ → σ → List Point × σ
  | 0, st => ([], st)
  | n + 1, st =>
    let z1 := R.next st
    let z2 := R.next z1.2
    let p := R.shape cov (z1.1, z2.1)
    let rest := multivariate_normal R mean cov n z2.2
    ((mean.1 + p.1, mean.2 + p.2) :: rest.1, rest.2)

/-- `generate_ellipsoid_clusters(distance, n_samples=100, cluster_std=0.5)`
from the source: reset the seed to 0, build the covariance matrix
`[[s, 0.8 s], [0.8 s, s]]`, draw `n_samples` class-0 points around `(1, 1)`,
then `n_samples` class-1 points around `(1 + d, 1 + d)`, and return the
stacked points with the parallel labels (zeros then ones).  The incoming
stream state `st` models the process-wide `np.random` state at call time. -/
def generate_ellipsoid_clusters {σ : Type} (R : RandomModel σ) (distance : ℚ)
    (n_samples : ℕ := 100) (cluster_std : ℚ := 1/2) (st : σ) :
    (List Point × List ℚ) × σ :=
  let st0 := R.seed 0
  let covariance_matrix := [[cluster_std, cluster_std * (8/10)],
                            [cluster_std * (8/10), cluster_std]]
  let X1 := multivariate_normal R (1, 1) covariance_matrix n_samples st0
  let y1 := List.replicate n_samples (0 : ℚ)
  let X2 := multivariate_normal R (1 + distance, 1 + distance)
    covariance_matrix n_samples X1.2
  let y2 := List.replicate n_samples (1 : ℚ)
  ((X1.1 ++ X2.1, y1 ++ y2), X2.2)

/-- `np.linspace(start, stop, num)`: `num` evenly spaced values from `start`
to `stop` inclusive (exact in ℚ; numpy computes the same grid in floats). -/
def linspace (start stop : ℚ) (num : ℕ) : List ℚ :=
  if num = 0 then []
  else if num = 1 then [start]
  else (List.range num).map fun i : ℕ =>
    start + (i : ℚ) * (stop - start) / ((num : ℚ) - 1)

/-- The sweep loop of `do_experiments(start, end, step_num)`: one experiment
per shift distance, in the order produced by `linspace`.  The body of one
iteration (sklearn fit, loss, margin, plotting) is abstracted as
`runExperiment`, since fitting and plotting are external collaborators; the
records accumulate in iteration order, as the parallel `append` calls do. -/
def do_experiments {α : Type} (runExperiment : ℚ → α) (start stop : ℚ)
    (step_num : ℕ) : List α :=
  (linspace start stop step_num).map runExperiment

/-- The no-argument entry point (`__main__`): `do_experiments(0.25, 2.0, 8)`. -/
def mainSweep {α : Type} (runExperiment : ℚ → α) : List α :=
  do_experiments runExperiment (1/4) 2 8

/-- Euclidean distance between two grid points, as scipy's
`cdist(..., metric='euclidean')` computes entrywise. -/
noncomputable def euclid (p q : Point) : ℝ :=
  Real.sqrt (((p.1 : ℝ) - (q.1 : ℝ)) ^ 2 + ((p.2 : ℝ) - (q.2 : ℝ)) ^ 2)

/-- `scipy.spatial.distance.cdist(P, Q)`: the full pairwise distance matrix,
row `i` holding the distances from `P[i]` to every point of `Q`. -/
noncomputable def cdist (P Q : List Point) : List (List ℝ) :=
  P.map fun p => Q.map fun q => euclid p q

/-- `np.min` over a flattened array: the least element, or `none` when the
array is empty (numpy raises a ValueError there). -/
noncomputable def npMin : List ℝ → Option ℝ
  | [] => none
  | x :: xs => some (xs.foldl min x)

/-- Lines 83–87 of the source: take the first boundary polyline of the
class-1 contour (`get_paths()[0].vertices`) and of the class-0 contour, form
the pairwise distance matrix with `cdist`, and record `np.min` of it.  An
empty contour set makes `get_paths()[0]` fail with an IndexError; that crash
(`MarginUndefinedError` in the spec) is the `none` branch. -/
noncomputable def computeMargin (class1Paths class0Paths : List (List Point)) :
    Option ℝ :=
  match class1Paths.head?, class0Paths.head? with
  | some v1, some v0 => npMin (cdist v1 v0).flatten
  | _, _ => none

/-- `logistic_loss(model, X, y)` from the source: the model's class-1
probabilities on `X`, then `-np.mean(y * log(p) + (1 - y) * log(1 - p))`.
The fitted model is its `predict_proba` column, an arbitrary map from points
to class-1 probabilities. -/
noncomputable def logistic_loss (predict_proba : Point → ℝ) (X : List Point)
    (y : List ℝ) : ℝ :=
  let probabilities := X.map predict_proba;
  -((List.zipWith
      (fun yi pi => yi * Real.log pi + (1 - yi) * Real.log (1 - pi))
      y probabilities).sum / (y.length : ℝ))

/-- Stated from the spec, for comparison with `logistic_loss`: the mean
negative log-likelihood, averaging `-(y_i ln p_i + (1 - y_i) ln (1 - p_i))`
over all points. -/
noncomputable def meanNegLogLikelihood (predict_proba : Point → ℝ)
    (X : List Point) (y : List ℝ) : ℝ :=
  (List.zipWith
      (fun yi pi => -(yi * Real.log pi + (1 - yi) * Real.log (1 - pi)))
      y (X.map predict_proba)).sum / (y.length : ℝ)

/-- Euclidean distance between the two cluster means the generator uses at
shift distance `d`: class 0 at `(1, 1)`, class 1 at `(1 + d, 1 + d)`. -/
noncomputable def centerSeparation (d : ℚ) : ℝ :=
  euclid (1, 1) (1 + d, 1 + d)

/-! ### Helper lemmas about the fold-based minimum -/

theorem foldl_min_le {α : Type} [LinearOrder α] :
    ∀ (xs : List α) (a x : α), x ∈ a :: xs → xs.foldl min a ≤ x := by
  intro xs
  induction xs with
  | nil =>
    intro a x hx
    rcases List.mem_singleton.mp hx with rfl
    simp
  | cons y ys ih =>
    intro a x hx
    rcases List.mem_cons.mp hx with rfl | hx
    · calc (y :: ys).foldl min x = ys.foldl min (min x y) := rfl
        _ ≤ min x y := ih (min x y) (min x y) (List.mem_cons_self _ _)
        _ ≤ x := min_le_left _ _
    · rcases List.mem_cons.mp hx with rfl | hx
      · calc (x :: ys).foldl min a = ys.foldl min (min a x) := rfl
          _ ≤ min a x := ih (min a x) (min a x) (List.mem_cons_self _ _)
          _ ≤ x := min_le_right _ _
      · exact ih (min a y) x (List.mem_cons_of_mem _ hx)

theorem foldl_min_mem {α : Type} [LinearOrder α] :
    ∀ (xs : List α) (a : α), xs.foldl min a ∈ a :: xs := by
  intro xs
  induction xs with
  | nil => intro a; simp
  | cons y ys ih =>
    intro a
    have h := ih (min a y)
    rcases List.mem_cons.mp h with h | h
    · rcases min_choice a y with hm | hm
      · have : (y :: ys).foldl min a = a := by
          simpa [hm] using h
        simp [this]
      · have : (y :: ys).foldl min a = y := by
          simpa [hm] using h
        simp [this]
    · exact List.mem_cons_of_mem _ (List.mem_cons_of_mem _ h)

theorem npMin_isSome {l : List ℝ} (h : l ≠ []) : ∃ m, npMin l = some m := by
  cases l with
  | nil => exact absurd rfl h
  | cons x xs => exact ⟨xs.foldl min x, rfl⟩

theorem npMin_mem {l : List ℝ} {m : ℝ} (h : npMin l = some m) : m ∈ l := by
  cases l with
  | nil => exact absurd h (by simp [npMin])
  | cons x xs =>
    have hm : xs.foldl min x = m := by simpa [npMin] using h
    simpa [hm] using foldl_min_mem xs x

theorem npMin_le {l : List ℝ} {m : ℝ} (h : npMin l = some m) :
    ∀ x ∈ l, m ≤ x := by
  cases l with
  | nil => simp
  | cons x xs =>
    have hm : xs.foldl min x = m := by simpa [npMin] using h
    intro z hz
    exact hm ▸ foldl_min_le xs x z hz

theorem mem_cdist_flatten {v1 v0 : List Point} {x : ℝ} :
    x ∈ (cdist v1 v0).flatten ↔ ∃ p ∈ v1, ∃ q ∈ v0, euclid p q = x := by
  simp only [cdist, List.mem_flatten, List.mem_map]
  constructor
  · rintro ⟨row, ⟨p, hp, hrow⟩, hx⟩
    subst hrow
    simp only [List.mem_map] at hx
    obtain ⟨q, hq, hxq⟩ := hx
    exact ⟨p, hp, q, hq, hxq⟩
  · rintro ⟨p, hp, q, hq, hx⟩
    refine ⟨v0.map fun r => euclid p r, ⟨p, hp, rfl⟩, ?_⟩
    rw [← hx]
    exact List.mem_map_of_mem _ hq

/-! ### Margin Estimator claims -/

/-- C1: whenever both confidence contours are non-empty, the recorded margin
width is exactly the minimum entry of the full pairwise Euclidean distance
matrix between the vertices of the first class-1 boundary polyline and the
vertices of the first class-0 boundary polyline — it is attained by some
vertex pair and bounds every entry from below — and it is non-negative. -/
theorem margin_min_pairwise (c1 c0 : List (List Point)) (v1 v0 : List Point)
    (h1 : c1.head? = some v1) (h0 : c0.head? = some v0)
    (hv1 : v1 ≠ []) (hv0 : v0 ≠ []) :
    ∃ m, computeMargin c1 c0 = some m ∧
      (∃ p ∈ v1, ∃ q ∈ v0, euclid p q = m) ∧
      (∀ p ∈ v1, ∀ q ∈ v0, m ≤ euclid p q) ∧ 0 ≤ m := by
  have hne : (cdist v1 v0).flatten ≠ [] := by
    obtain ⟨p, hp⟩ := List.exists_mem_of_ne_nil v1 hv1
    obtain ⟨q, hq⟩ := List.exists_mem_of_ne_nil v0 hv0
    intro hemp
    have hmem : euclid p q ∈ (cdist v1 v0).flatten :=
      mem_cdist_flatten.mpr ⟨p, hp, q, hq, rfl⟩
    rw [hemp] at hmem
    exact absurd hmem (List.not_mem_nil _)
  obtain ⟨m, hm⟩ := npMin_isSome hne
  refine ⟨m, ?_, ?_, ?_, ?_⟩
  · simp [computeMargin, h1, h0, hm]
  · exact mem_cdist_flatten.mp (npMin_mem hm)
  · intro p hp q hq
    exact npMin_le hm _ (mem_cdist_flatten.mpr ⟨p, hp, q, hq, rfl⟩)
  · obtain ⟨p, hp, q, hq, he⟩ := mem_cdist_flatten.mp (npMin_mem hm)
    rw [← he]
    exact Real.sqrt_nonneg _

/-- Witness for C1 at concrete one-vertex contours. -/
theorem margin_min_pairwise_witness :
    (([[((0 : ℚ), (0 : ℚ))]] : List (List Point)).head? =
        some [((0 : ℚ), (0 : ℚ))]) ∧
    (([[((3 : ℚ), (4 : ℚ))]] : List (List Point)).head? =
        some [((3 : ℚ), (4 : ℚ))]) ∧
    ([((0 : ℚ), (0 : ℚ))] ≠ ([] : List Point)) ∧
    ([((3 : ℚ), (4 : ℚ))] ≠ ([] : List Point)) ∧
    (∃ m, computeMargin [[((0 : ℚ), (0 : ℚ))]] [[((3 : ℚ), (4 : ℚ))]] =
          some m ∧
      (∃ p ∈ [((0 : ℚ), (0 : ℚ))], ∃ q ∈ [((3 : ℚ), (4 : ℚ))],
          euclid p q = m) ∧
      (∀ p ∈ [((0 : ℚ), (0 : ℚ))], ∀ q ∈ [((3 : ℚ), (4 : ℚ))],
          m ≤ euclid p q) ∧ 0 ≤ m) :=
  ⟨rfl, rfl, List.cons_ne_nil _ _, List.cons_ne_nil _ _,
    margin_min_pairwise _ _ _ _ rfl rfl
      (List.cons_ne_nil _ _) (List.cons_ne_nil _ _)⟩

/-- C9: if either confidence region at the 0.7 level yields no boundary
polyline, the margin computation fails (the source crashes indexing the empty
path list) and no margin value is produced for that iteration. -/
theorem margin_none_of_empty_contour (c1 c0 : List (List Point))
    (h : c1 = [] ∨ c0 = []) : computeMargin c1 c0 = none := by
  rcases h with h | h
  · subst h
    simp [computeMargin]
  · subst h
    cases hc : c1.head? <;> simp [computeMargin, hc]

/-- Witness for C9: an empty class-1 contour set. -/
theorem margin_none_of_empty_contour_witness :
    (([] : List (List Point)) = [] ∨
      ([[((3 : ℚ), (4 : ℚ))]] : List (List Point)) = []) ∧
    computeMargin [] [[((3 : ℚ), (4 : ℚ))]] = none :=
  ⟨Or.inl rfl, margin_none_of_empty_contour _ _ (Or.inl rfl)⟩

/-! ### Cluster Generator claims -/

theorem multivariate_normal_length {σ : Type} (R : RandomModel σ)
    (mean : ℚ × ℚ) (cov : List (List ℚ)) :
    ∀ (n : ℕ) (st : σ), (multivariate_normal R mean cov n st).1.length = n := by
  intro n
  induction n with
  | zero => intro st; rfl
  | succ k ih =>
    intro st
    simp [multivariate_normal, ih]

/-- C3: for a fixed `(d, n, s)`, the generator's output Dataset is the same
whatever the ambient numpy random state was, for every model of the random
machinery: `np.random.seed(0)` at the top of every call discards the incoming
state, so two calls with identical arguments are bit-identical. -/
theorem generate_reproducible {σ : Type} (R : RandomModel σ) (d : ℚ) (n : ℕ)
    (s : ℚ) (st1 st2 : σ) :
    (generate_ellipsoid_clusters R d n s st1).1 =
      (generate_ellipsoid_clusters R d n s st2).1 := rfl

/-- C4: the generator returns exactly `2 n` points and `2 n` labels; the
labels are `n` zeros followed by `n` ones (so exactly `n` of each), and the
points split in parallel as the class-0 draw around `(1, 1)` followed by the
class-1 draw around `(1 + d, 1 + d)`, each of length `n`. -/
theorem generate_shape {σ : Type} (R : RandomModel σ) (d : ℚ) (n : ℕ)
    (s : ℚ) (st : σ) :
    ((generate_ellipsoid_clusters R d n s st).1.1).length = 2 * n ∧
    ((generate_ellipsoid_clusters R d n s st).1.2).length = 2 * n ∧
    (generate_ellipsoid_clusters R d n s st).1.2 =
      List.replicate n (0 : ℚ) ++ List.replicate n (1 : ℚ) ∧
    ((generate_ellipsoid_clusters R d n s st).1.2).count 0 = n ∧
    ((generate_ellipsoid_clusters R d n s st).1.2).count 1 = n ∧
    ∃ X1 X2,
      X1 = (multivariate_normal R (1, 1)
        [[s, s * (8/10)], [s * (8/10), s]] n (R.seed 0)).1 ∧
      X2 = (multivariate_normal R (1 + d, 1 + d)
        [[s, s * (8/10)], [s * (8/10), s]] n
        (multivariate_normal R (1, 1)
          [[s, s * (8/10)], [s * (8/10), s]] n (R.seed 0)).2).1 ∧
      (generate_ellipsoid_clusters R d n s st).1.1 = X1 ++ X2 ∧
      X1.length = n ∧ X2.length = n := by
  refine ⟨?_, ?_, rfl, ?_, ?_, _, _, rfl, rfl, rfl, ?_, ?_⟩
  · simp [generate_ellipsoid_clusters, multivariate_normal_length, two_mul]
  · simp [generate_ellipsoid_clusters, two_mul]
  · have h : List.count (0 : ℚ) (List.replicate n (1 : ℚ)) = 0 := by
      rw [List.count_eq_zero]
      simp [List.mem_replicate]
    simp [generate_ellipsoid_clusters, List.count_append, h]
  · have h : List.count (1 : ℚ) (List.replicate n (0 : ℚ)) = 0 := by
      rw [List.count_eq_zero]
      simp [List.mem_replicate]
    simp [generate_ellipsoid_clusters, List.count_append, h]
  · exact multivariate_normal_length R _ _ n _
  · exact multivariate_normal_length R _ _ n _

theorem generate_points_eq {σ : Type} (R : RandomModel σ) (d : ℚ) (n : ℕ)
    (s : ℚ) (st : σ) :
    (generate_ellipsoid_clusters R d n s st).1.1 =
      (multivariate_normal R (1, 1)
        [[s, s * (8/10)], [s * (8/10), s]] n (R.seed 0)).1 ++
      (multivariate_normal R (1 + d, 1 + d)
        [[s, s * (8/10)], [s * (8/10), s]] n
        (multivariate_normal R (1, 1)
          [[s, s * (8/10)], [s * (8/10), s]] n (R.seed 0)).2).1 := rfl

theorem generate_labels_eq {σ : Type} (R : RandomModel σ) (d : ℚ) (n : ℕ)
    (s : ℚ) (st : σ) :
    (generate_ellipsoid_clusters R d n s st).1.2 =
      List.replicate n (0 : ℚ) ++ List.replicate n (1 : ℚ) := rfl

/-- C10: the class-0 half of the generator's output does not depend on the
shift distance (nor on the ambient random state): the first `n` points and
first `n` labels coincide for any two distances `d`, `d'`, because the seed
is reset before sampling and the class-0 draw precedes any use of `d`. -/
theorem generate_class0_block_shift_invariant {σ : Type} (R : RandomModel σ)
    (d d' : ℚ) (n : ℕ) (s : ℚ) (st st' : σ) :
    ((generate_ellipsoid_clusters R d n s st).1.1).take n =
      ((generate_ellipsoid_clusters R d' n s st').1.1).take n ∧
    ((generate_ellipsoid_clusters R d n s st).1.2).take n =
      ((generate_ellipsoid_clusters R d' n s st').1.2).take n := by
  constructor
  · rw [generate_points_eq, generate_points_eq,
      List.take_left' (multivariate_normal_length R _ _ n _),
      List.take_left' (multivariate_normal_length R _ _ n _)]
  · rw [generate_labels_eq, generate_labels_eq,
      List.take_left' (List.length_replicate n (0 : ℚ))]

/-! ### Sweep Orchestrator claims -/

theorem linspace_length (start stop : ℚ) {num : ℕ} (h2 : 2 ≤ num) :
    (linspace start stop num).length = num := by
  have h0 : num ≠ 0 := by omega
  have h1 : num ≠ 1 := by omega
  unfold linspace
  rw [if_neg h0, if_neg h1, List.length_map, List.length_range]

theorem linspace_getElem (start stop : ℚ) {num : ℕ} (h2 : 2 ≤ num)
    {i : ℕ} (hi : i < num) :
    (linspace start stop num)[i]? =
      some (start + i * (stop - start) / ((num : ℚ) - 1)) := by
  have h0 : num ≠ 0 := by omega
  have h1 : num ≠ 1 := by omega
  unfold linspace
  rw [if_neg h0, if_neg h1, List.getElem?_map, List.getElem?_range hi,
    Option.map_some']

theorem linspace_sorted {start stop : ℚ} (num : ℕ) (hlt : start < stop) :
    List.Sorted (· < ·) (linspace start stop num) := by
  by_cases h0 : num = 0
  · unfold linspace
    rw [if_pos h0]
    exact List.sorted_nil
  by_cases h1 : num = 1
  · unfold linspace
    rw [if_neg h0, if_pos h1]
    exact List.sorted_singleton _
  have hden : (0 : ℚ) < (num : ℚ) - 1 := by
    have : 2 ≤ num := by omega
    have h : (2 : ℚ) ≤ (num : ℚ) := by exact_mod_cast this
    linarith
  have hc : (0 : ℚ) < (stop - start) / ((num : ℚ) - 1) :=
    div_pos (by linarith) hden
  show List.Pairwise (· < ·) (linspace start stop num)
  unfold linspace
  rw [if_neg h0, if_neg h1, List.pairwise_map]
  refine List.Pairwise.imp ?_ (List.pairwise_lt_range num)
  intro i j hij
  have hcast : (i : ℚ) < (j : ℚ) := by exact_mod_cast hij
  calc start + (i : ℚ) * (stop - start) / ((num : ℚ) - 1)
      = start + (i : ℚ) * ((stop - start) / ((num : ℚ) - 1)) := by
        rw [mul_div_assoc]
    _ < start + (j : ℚ) * ((stop - start) / ((num : ℚ) - 1)) := by
        have := mul_lt_mul_of_pos_right hcast hc
        linarith
    _ = start + (j : ℚ) * (stop - start) / ((num : ℚ) - 1) := by
        rw [mul_div_assoc]

theorem linspace_main_concrete :
    linspace (1/4) 2 8 = [1/4, 1/2, 3/4, 1, 5/4, 3/2, 7/4, 2] := by
  unfold linspace
  norm_num [List.range_succ]

/-- C2 (amended: the shift values are strictly increasing provided
`start < stop`; `np.linspace` produces a decreasing grid when
`start > stop`): with `count ≥ 2` and `start < stop`, `linspace` yields
exactly `count` values, starting at `start`, ending at `stop`, with constant
consecutive spacing `(stop - start) / (count - 1)`, sorted strictly
increasingly; `do_experiments` runs one experiment per value in that order,
and the no-argument entry point runs the sweep over
`0.25, 0.5, ..., 2.0`, producing exactly 8 experiment records. -/
theorem sweep_linspace_spec {α : Type} (f : ℚ → α) (start stop : ℚ)
    (num : ℕ) (h2 : 2 ≤ num) (hlt : start < stop) :
    (linspace start stop num).length = num ∧
    (linspace start stop num)[0]? = some start ∧
    (linspace start stop num)[num - 1]? = some stop ∧
    (∀ i, i + 1 < num → ∃ a b, (linspace start stop num)[i]? = some a ∧
      (linspace start stop num)[i + 1]? = some b ∧
      b - a = (stop - start) / ((num : ℚ) - 1)) ∧
    List.Sorted (· < ·) (linspace start stop num) ∧
    do_experiments f start stop num = (linspace start stop num).map f ∧
    (do_experiments f start stop num).length = num ∧
    mainSweep f = [f (1/4), f (1/2), f (3/4), f 1, f (5/4), f (3/2),
      f (7/4), f 2] ∧
    (mainSweep f).length = 8 := by
  have hnum1 : (1 : ℕ) ≤ num := by omega
  have hden : (num : ℚ) - 1 ≠ 0 := by
    have h : (2 : ℚ) ≤ (num : ℚ) := by exact_mod_cast h2
    intro h0
    linarith
  refine ⟨linspace_length start stop h2, ?_, ?_, ?_, linspace_sorted num hlt,
    rfl, ?_, ?_, ?_⟩
  · rw [linspace_getElem start stop h2 (by omega)]
    norm_num
  · rw [linspace_getElem start stop h2 (by omega)]
    rw [Nat.cast_sub hnum1]
    congr 1
    push_cast
    field_simp
  · intro i hi
    refine ⟨start + i * (stop - start) / ((num : ℚ) - 1),
      start + ((i : ℚ) + 1) * (stop - start) / ((num : ℚ) - 1),
      linspace_getElem start stop h2 (by omega), ?_, ?_⟩
    · rw [linspace_getElem start stop h2 hi]
      push_cast
      ring_nf
    · field_simp
      ring
  · show ((linspace start stop num).map f).length = num
    rw [List.length_map, linspace_length start stop h2]
  · show (linspace (1/4) 2 8).map f = _
    rw [linspace_main_concrete]
    rfl
  · show ((linspace (1/4) 2 8).map f).length = 8
    rw [linspace_main_concrete]
    rfl

/-- Witness for C2 at the entry-point arguments, with the identity as the
abstract experiment body. -/
theorem sweep_linspace_spec_witness :
    ((2 : ℕ) ≤ 8 ∧ (1/4 : ℚ) < 2) ∧
    List.Sorted (· < ·) (linspace (1/4 : ℚ) 2 8) ∧
    (mainSweep (fun q : ℚ => q)).length = 8 :=
  ⟨⟨by norm_num, by norm_num⟩,
    (sweep_linspace_spec (fun q : ℚ => q) (1/4) 2 8 (by norm_num)
      (by norm_num)).2.2.2.2.1,
    (sweep_linspace_spec (fun q : ℚ => q) (1/4) 2 8 (by norm_num)
      (by norm_num)).2.2.2.2.2.2.2.2⟩

/-- Counterexample to C2 as stated: with `start = 2 > 1 = stop` and
`count = 2`, the sweep visits the shift distances `2, 1`, which is not
strictly increasing. -/
theorem sweep_not_increasing_counterexample :
    (2 : ℕ) ≤ 2 ∧ linspace (2 : ℚ) 1 2 = [2, 1] ∧
    ¬ List.Sorted (· < ·) (linspace (2 : ℚ) 1 2) := by
  have hval : linspace (2 : ℚ) 1 2 = [2, 1] := by
    unfold linspace
    norm_num [List.range_succ]
  refine ⟨le_refl 2, hval, ?_⟩
  rw [hval]
  intro h
  have := List.rel_of_sorted_cons h 1 (by simp)
  norm_num at this

/-! ### Cluster-mean separation claims -/

theorem centerSeparation_eq {d : ℚ} (hd : 0 ≤ d) :
    centerSeparation d = (d : ℝ) * Real.sqrt 2 := by
  unfold centerSeparation euclid
  have hcast : ((1 : ℚ) : ℝ) - (((1 + d : ℚ)) : ℝ) = -(d : ℝ) := by
    push_cast
    ring
  rw [show (((1, 1) : Point).1 : ℝ) = ((1 : ℚ) : ℝ) from rfl]
  push_cast
  have harg : ((1 : ℝ) - (1 + (d : ℝ))) ^ 2 + ((1 : ℝ) - (1 + (d : ℝ))) ^ 2 =
      ((d : ℝ)) ^ 2 * 2 := by ring
  rw [harg, Real.sqrt_mul (sq_nonneg _), Real.sqrt_sq (by exact_mod_cast hd)]

/-- C5 (amended: restricted to non-negative shift distances, the range the
sweep uses; for negative distances the separation is `|d| sqrt 2`, which is
not monotone in `d`): for `0 ≤ d1 < d2` the Euclidean distance between the
two cluster means `(1, 1)` and `(1 + d, 1 + d)` equals `d sqrt 2` at each of
the two distances and is strictly greater at `d2` than at `d1`. -/
theorem centerSeparation_strict_mono (d1 d2 : ℚ) (h0 : 0 ≤ d1)
    (h12 : d1 < d2) :
    centerSeparation d1 = (d1 : ℝ) * Real.sqrt 2 ∧
    centerSeparation d2 = (d2 : ℝ) * Real.sqrt 2 ∧
    centerSeparation d1 < centerSeparation d2 := by
  have h02 : (0 : ℚ) ≤ d2 := le_of_lt (lt_of_le_of_lt h0 h12)
  refine ⟨centerSeparation_eq h0, centerSeparation_eq h02, ?_⟩
  rw [centerSeparation_eq h0, centerSeparation_eq h02]
  have hc : (d1 : ℝ) < (d2 : ℝ) := by exact_mod_cast h12
  exact mul_lt_mul_of_pos_right hc (Real.sqrt_pos.mpr (by norm_num))

/-- Witness for C5 at `d1 = 0`, `d2 = 1`. -/
theorem centerSeparation_strict_mono_witness :
    ((0 : ℚ) ≤ 0 ∧ (0 : ℚ) < 1) ∧
    centerSeparation 0 = ((0 : ℚ) : ℝ) * Real.sqrt 2 ∧
    centerSeparation 1 = ((1 : ℚ) : ℝ) * Real.sqrt 2 ∧
    centerSeparation 0 < centerSeparation 1 :=
  ⟨⟨le_refl 0, by norm_num⟩,
    centerSeparation_strict_mono 0 1 (le_refl 0) (by norm_num)⟩

/-- Counterexample to C5 as stated: for the pair `d1 = -1 < d2 = 0` the
center separation at `d2` (zero) is not greater than at `d1`
(`sqrt 2`): without a sign restriction the separation is `|d| sqrt 2`. -/
theorem centerSeparation_not_mono_counterexample :
    (-1 : ℚ) < 0 ∧ ¬ (centerSeparation (-1) < centerSeparation 0) := by
  have h0 : centerSeparation 0 = 0 := by
    rw [centerSeparation_eq (le_refl 0)]
    norm_num
  have hneg : 0 ≤ centerSeparation (-1) := by
    unfold centerSeparation euclid
    exact Real.sqrt_nonneg _
  exact ⟨by norm_num, by rw [h0]; exact fun h => absurd h (not_lt.mpr hneg)⟩

/-! ### Loss Evaluator claims -/

theorem zipWith_neg_sum (f : ℝ → ℝ → ℝ) :
    ∀ (l1 l2 : List ℝ),
      (List.zipWith (fun a b => -(f a b)) l1 l2).sum =
        -(List.zipWith f l1 l2).sum := by
  intro l1
  induction l1 with
  | nil => intro l2; simp
  | cons a as ih =>
    intro l2
    cases l2 with
    | nil => simp
    | cons b bs =>
      simp only [List.zipWith_cons_cons, List.sum_cons, ih]
      ring

/-- C6: the Loss Evaluator returns the mean negative log-likelihood — the
negated mean of `y_i ln p_i + (1 - y_i) ln (1 - p_i)` computed by the source
equals the average over all points of `-(y_i ln p_i + (1 - y_i) ln (1 - p_i))`
stated by the spec. -/
theorem logistic_loss_is_mean_nll (predict_proba : Point → ℝ)
    (X : List Point) (y : List ℝ) :
    logistic_loss predict_proba X y =
      meanNegLogLikelihood predict_proba X y := by
  unfold logistic_loss meanNegLogLikelihood
  rw [zipWith_neg_sum, neg_div]

theorem sum_nonpos_list : ∀ {l : List ℝ}, (∀ x ∈ l, x ≤ 0) → l.sum ≤ 0 := by
  intro l
  induction l with
  | nil => intro _; simp
  | cons a as ih =>
    intro h
    have ha := h a (List.mem_cons_self _ _)
    have has := ih fun x hx => h x (List.mem_cons_of_mem _ hx)
    simp only [List.sum_cons]
    linarith

theorem sum_nonpos_eq_zero_mem : ∀ {l : List ℝ}, (∀ x ∈ l, x ≤ 0) →
    l.sum = 0 → ∀ x ∈ l, x = 0 := by
  intro l
  induction l with
  | nil => intro _ _ x hx; exact absurd hx (List.not_mem_nil x)
  | cons a as ih =>
    intro h hs x hx
    have ha := h a (List.mem_cons_self _ _)
    have has : as.sum ≤ 0 :=
      sum_nonpos_list fun z hz => h z (List.mem_cons_of_mem _ hz)
    have hsum : a + as.sum = 0 := by simpa using hs
    have ha0 : a = 0 := by linarith
    have hs0 : as.sum = 0 := by linarith
    rcases List.mem_cons.mp hx with rfl | hx
    · exact ha0
    · exact ih (fun z hz => h z (List.mem_cons_of_mem _ hz)) hs0 x hx

theorem zipWith_eq_map_zip (f : ℝ → ℝ → ℝ) :
    ∀ (l1 l2 : List ℝ),
      List.zipWith f l1 l2 = (l1.zip l2).map fun p => f p.1 p.2 := by
  intro l1
  induction l1 with
  | nil => intro l2; simp
  | cons a as ih =>
    intro l2
    cases l2 with
    | nil => simp
    | cons b bs => simp [ih]

theorem nll_term_nonpos {yi pi : ℝ} (hy : yi = 0 ∨ yi = 1) (hp0 : 0 ≤ pi)
    (hp1 : pi ≤ 1) (hnd : pi ≠ 1 - yi) :
    yi * Real.log pi + (1 - yi) * Real.log (1 - pi) ≤ 0 ∧
    (yi * Real.log pi + (1 - yi) * Real.log (1 - pi) = 0 → pi = yi) := by
  rcases hy with rfl | rfl
  · have hne : pi ≠ 1 := by simpa using hnd
    have hlt : pi < 1 := lt_of_le_of_ne hp1 hne
    have hterm : (0 : ℝ) * Real.log pi + (1 - 0) * Real.log (1 - pi) =
        Real.log (1 - pi) := by ring
    rw [hterm]
    constructor
    · exact Real.log_nonpos (by linarith) (by linarith)
    · intro hz
      rcases Real.log_eq_zero.mp hz with h | h | h
      · linarith
      · linarith
      · linarith
  · have hne : pi ≠ 0 := by simpa using hnd
    have hgt : 0 < pi := lt_of_le_of_ne hp0 (Ne.symm hne)
    have hterm : (1 : ℝ) * Real.log pi + (1 - 1) * Real.log (1 - pi) =
        Real.log pi := by ring
    rw [hterm]
    constructor
    · exact Real.log_nonpos (by linarith) hp1
    · intro hz
      rcases Real.log_eq_zero.mp hz with h | h | h
      · linarith
      · linarith
      · linarith

/-- C7: whenever every label is 0 or 1, every predicted probability lies in
`[0, 1]`, and no prediction sits at the diverging extreme `p_i = 1 - y_i`
(the LogDomainError case, where the float loss is infinite rather than a
real number), the loss is non-negative, and it is zero only if every
prediction is perfect and maximally confident, `p_i = y_i` exactly. -/
theorem logistic_loss_nonneg (predict_proba : Point → ℝ) (X : List Point)
    (y : List ℝ)
    (h : ∀ pr ∈ y.zip (X.map predict_proba),
      (pr.1 = 0 ∨ pr.1 = 1) ∧ 0 ≤ pr.2 ∧ pr.2 ≤ 1 ∧ pr.2 ≠ 1 - pr.1) :
    0 ≤ logistic_loss predict_proba X y ∧
    (logistic_loss predict_proba X y = 0 →
      ∀ pr ∈ y.zip (X.map predict_proba), pr.2 = pr.1) := by
  have hL : List.zipWith
      (fun yi pi => yi * Real.log pi + (1 - yi) * Real.log (1 - pi))
      y (X.map predict_proba) =
      (y.zip (X.map predict_proba)).map
        fun pr => pr.1 * Real.log pr.2 + (1 - pr.1) * Real.log (1 - pr.2) :=
    zipWith_eq_map_zip _ y (X.map predict_proba)
  have hnonpos : ∀ x ∈ List.zipWith
      (fun yi pi => yi * Real.log pi + (1 - yi) * Real.log (1 - pi))
      y (X.map predict_proba), x ≤ 0 := by
    intro x hx
    rw [hL] at hx
    obtain ⟨pr, hpr, hxe⟩ := List.mem_map.mp hx
    obtain ⟨hy, hp0, hp1, hnd⟩ := h pr hpr
    rw [← hxe]
    exact (nll_term_nonpos hy hp0 hp1 hnd).1
  have hsum := sum_nonpos_list hnonpos
  constructor
  · show (0 : ℝ) ≤ -(_ / ((y.length : ℕ) : ℝ))
    rw [← neg_div]
    exact div_nonneg (neg_nonneg.mpr hsum) (Nat.cast_nonneg _)
  · intro hz pr hpr
    have hdiv : (List.zipWith
        (fun yi pi => yi * Real.log pi + (1 - yi) * Real.log (1 - pi))
        y (X.map predict_proba)).sum / ((y.length : ℕ) : ℝ) = 0 := by
      have : -(_ / ((y.length : ℕ) : ℝ)) = (0 : ℝ) := hz
      linarith [neg_eq_zero.mp this]
    rcases div_eq_zero_iff.mp hdiv with hS | hN
    · have hall := sum_nonpos_eq_zero_mem hnonpos hS
      obtain ⟨hy, hp0, hp1, hnd⟩ := h pr hpr
      refine (nll_term_nonpos hy hp0 hp1 hnd).2 (hall _ ?_)
      rw [hL]
      exact List.mem_map_of_mem _ hpr
    · have hy0 : y = [] := by
        rw [← List.length_eq_zero]
        exact_mod_cast hN
      rw [hy0] at hpr
      exact absurd hpr (List.not_mem_nil pr)

/-- Witness for C7: one point with label 1 predicted at probability 1/2. -/
theorem logistic_loss_nonneg_witness :
    (∀ pr ∈ [(1 : ℝ)].zip
        (([((0 : ℚ), (0 : ℚ))] : List Point).map fun _ => (1 : ℝ)/2),
      (pr.1 = 0 ∨ pr.1 = 1) ∧ 0 ≤ pr.2 ∧ pr.2 ≤ 1 ∧ pr.2 ≠ 1 - pr.1) ∧
    0 ≤ logistic_loss (fun _ => (1 : ℝ)/2) [((0 : ℚ), (0 : ℚ))] [(1 : ℝ)] := by
  have h : ∀ pr ∈ [(1 : ℝ)].zip
      (([((0 : ℚ), (0 : ℚ))] : List Point).map fun _ => (1 : ℝ)/2),
      (pr.1 = 0 ∨ pr.1 = 1) ∧ 0 ≤ pr.2 ∧ pr.2 ≤ 1 ∧ pr.2 ≠ 1 - pr.1 := by
    intro pr hpr
    have hpr2 : pr = ((1 : ℝ), (1 : ℝ)/2) := by
      simpa using hpr
    rw [hpr2]
    norm_num
  exact ⟨h,
    (logistic_loss_nonneg (fun _ => (1 : ℝ)/2) [((0 : ℚ), (0 : ℚ))]
      [(1 : ℝ)] h).1⟩

end LogReg
